import Mathlib

/-!
Verification development for the route-counting core of peernet-calc
(src/core.py).  The Python functions are embedded shallowly:

* machine integers become Int (Python ints are arbitrary precision);
* a function that can raise ValueError returns an Option, none standing
  for the raised exception;
* Python floor division on non-negative operands becomes Nat division,
  and on Int operands becomes Int.fdiv (Python // floors);
* the policy selector of the probability engine is modelled at the two
  built-in values (True, False) as a Bool; the user-callable branch of
  the source is exercised by no statement below.
-/

/-- F_Tor(n,k) from core.py: 0 when k < 0, n < 2 or k > n-2, otherwise
the product of (n - i - 1) for i = 1..k (reindexed to i = 0..k-1). -/
def f_tor (n k : Int) : Int :=
  if k < 0 ∨ n < 2 ∨ n - 2 < k then 0
  else (Finset.range k.toNat).prod (fun i => n - (i : Int) - 2)

/-- F_I2P(n,k) from core.py: val = f_tor n k, then val * val. -/
def f_i2p (n k : Int) : Int :=
  f_tor n k * f_tor n k

/-- F1(n,j) from core.py (no-repeat route count).  The branches are in
source order: n < j returns 0; j = 1, 2, 3 are closed forms; 4 ≤ j ≤ n is
the general band; otherwise the source raises ValueError, modelled as
none.  The product over m in range(2, j) is reindexed to 0..j-3. -/
def f1_no_rep (n j : Int) : Option Int :=
  if n < j then some 0
  else if j = 1 then some (max (n - 2) 0)
  else if j = 2 then some ((n - 1) + (n - 2) ^ 2)
  else if j = 3 then some ((n - 2) * ((n - 1) + (n - 2) + (n - 2) * (n - 3)))
  else if 4 ≤ j ∧ j ≤ n then
    some (((n - 1) + (j - 2) * (n - 2) + (n - 2) * (n - j)) *
      (Finset.range (j.toNat - 2)).prod (fun m => n - (m : Int) - 2))
  else none

/-- F2(j,n) from core.py: ((n-1)^(j+1) - (-1)^(j+1)) // n.  Python **
on a non-negative integer exponent is Monoid.npow, so the exponent is
(j+1).toNat (the claims under verification all have j ≥ 1); Python //
is floor division, Int.fdiv. -/
def f2_rep (j n : Int) : Int :=
  ((n - 1) ^ (j + 1).toNat - (-1 : Int) ^ (j + 1).toNat).fdiv n

/-- _total_routes from core.py at the two built-in selector values:
True dispatches to f2_rep j n, False to f1_no_rep n j.  The Option
propagates the possible ValueError of f1_no_rep. -/
def _total_routes (n j : Int) (selector : Bool) : Option Int :=
  if selector then some (f2_rep j n) else f1_no_rep n j

/-- _safe_routes from core.py: m = 0 gives the total count, n - m < 2
gives 0 (only the endpoints remain), otherwise the total count on the
reduced network of n - m nodes. -/
def _safe_routes (n j m : Int) (selector : Bool) : Option Int :=
  if m = 0 then _total_routes n j selector
  else if n - m < 2 then some 0
  else _total_routes (n - m) j selector

/-- A(j,k,n) from core.py (formula 8).  The source recursion at j ≤ 0
never terminates (it recurses on j-1 and j-2 forever), so the value 0
placed at j = 0 is unreachable from any call with j ≥ 1, the only
region the claims quantify over.  math.comb on non-negative arguments
is Nat.choose; all arguments are non-negative for n ≥ 2. -/
def _a : Nat → Nat → Nat → Nat
  | 0, _, _ => 0
  | 1, _, _ => 1
  | 2, k, n => Nat.choose (n - 1) k + Nat.choose (n - 2) k
  | (j + 3), k, n =>
      Nat.choose (n - 2) (k - 1) * Nat.choose (n - 1) k * _a (j + 1) k n
        + Nat.choose (n - 2) k * _a (j + 2) k n

/-- N(j,k,n) from core.py (formula 7): base j = 1 is C(n-2, k-1), the
general step is N(j-1,k,n)^k // A(j-1,k,n) * A(j,k,n), with Python //
on non-negative integers being Nat division.  As with _a, the value at
j = 0 is an unreachable placeholder for the non-terminating source
recursion below j = 1. -/
def n_mss : Nat → Nat → Nat → Nat
  | 0, _, _ => 0
  | 1, k, n => Nat.choose (n - 2) (k - 1)
  | (j + 2), k, n => n_mss (j + 1) k n ^ k / _a (j + 1) k n * _a (j + 2) k n

/-- The numerator of f2_rep is always divisible by n, because n - 1 is
congruent to -1 modulo n. -/
theorem f2_numerator_dvd (j n : Int) :
    n ∣ (n - 1) ^ (j + 1).toNat - (-1 : Int) ^ (j + 1).toNat := by
  have h : (n - 1) ≡ (-1) [ZMOD n] := Int.ModEq.symm (Int.modEq_iff_dvd.mpr ⟨1, by ring⟩)
  exact ((h.pow ((j + 1).toNat)).symm).dvd

/-- The floor division in f2_rep is exact for positive n. -/
theorem f2_mul_cancel (j n : Int) (hn : 0 < n) :
    f2_rep j n * n = (n - 1) ^ (j + 1).toNat - (-1 : Int) ^ (j + 1).toNat := by
  unfold f2_rep
  rw [Int.fdiv_eq_ediv _ hn.le]
  exact Int.ediv_mul_cancel (f2_numerator_dvd j n)

/-- C3: for n ≥ 2 and j ≥ 1, n divides (n-1)^(j+1) - (-1)^(j+1), so the
floor division in f2_rep has zero remainder: f2_rep j n * n recovers the
numerator exactly. -/
theorem f2_rep_division_exact (j n : Int) (hj : 1 ≤ j) (hn : 2 ≤ n) :
    n ∣ (n - 1) ^ (j + 1).toNat - (-1 : Int) ^ (j + 1).toNat ∧
      f2_rep j n * n = (n - 1) ^ (j + 1).toNat - (-1 : Int) ^ (j + 1).toNat :=
  ⟨f2_numerator_dvd j n, f2_mul_cancel j n (by omega)⟩

/-- Witness for f2_rep_division_exact at j = 4, n = 7: 7 divides
6^5 + 1 = 7777 and f2_rep 4 7 * 7 = 7777. -/
theorem f2_rep_division_exact_witness :
    (1 : Int) ≤ 4 ∧ (2 : Int) ≤ 7 ∧
      ((7 : Int) ∣ (6 : Int) ^ (5 : Nat) - (-1 : Int) ^ (5 : Nat) ∧
        f2_rep 4 7 * 7 = (6 : Int) ^ (5 : Nat) - (-1 : Int) ^ (5 : Nat)) :=
  ⟨by decide, by decide, by
    have h := f2_rep_division_exact 4 7 (by decide) (by decide)
    simpa using h⟩

/-- The numerator of f2_rep is non-negative for n ≥ 2. -/
theorem f2_numerator_nonneg (n : Int) (hn : 2 ≤ n) (p : Nat) :
    0 ≤ (n - 1) ^ p - (-1 : Int) ^ p := by
  have h1 : (1 : Int) ≤ (n - 1) ^ p := by
    calc (1 : Int) = 1 ^ p := (one_pow p).symm
    _ ≤ (n - 1) ^ p := pow_le_pow_left₀ (by norm_num) (by omega) p
  rcases neg_one_pow_eq_or Int p with h | h <;> rw [h] <;> linarith

/-- f2_rep is non-negative on n ≥ 2. -/
theorem f2_rep_nonneg (j n : Int) (hn : 2 ≤ n) : 0 ≤ f2_rep j n := by
  have hm := f2_mul_cancel j n (by omega)
  have hnum := f2_numerator_nonneg n hn ((j + 1).toNat)
  have h : 0 * n ≤ f2_rep j n * n := by rw [zero_mul]; linarith
  exact le_of_mul_le_mul_right h (by omega)

/-- The growth inequality behind the monotonicity of f2_rep in n. -/
theorem f2_pow_ineq (n : Int) (hn : 2 ≤ n) (q : Nat) :
    (n + 1) * (n - 1) ^ (q + 1) + 1 ≤ n ^ (q + 2) := by
  have h1 : (n - 1) ^ q ≤ n ^ q := pow_le_pow_left₀ (by omega) (by omega) q
  have h2 : (1 : Int) ≤ n ^ q := by
    calc (1 : Int) = 1 ^ q := (one_pow q).symm
    _ ≤ n ^ q := pow_le_pow_left₀ (by norm_num) (by omega) q
  have h3 : (0 : Int) ≤ n ^ 2 - 1 := by nlinarith
  have h4 : (n ^ 2 - 1) * (n - 1) ^ q ≤ (n ^ 2 - 1) * n ^ q :=
    mul_le_mul_of_nonneg_left h1 h3
  have e1 : n ^ (q + 2) = (n ^ 2 - 1) * n ^ q + n ^ q := by ring
  have e2 : (n + 1) * (n - 1) ^ (q + 1) = (n ^ 2 - 1) * (n - 1) ^ q := by ring
  linarith

/-- One monotonicity step of f2_rep in n, for j ≥ 1 and n ≥ 2. -/
theorem f2_rep_mono_succ (j n : Int) (hj : 1 ≤ j) (hn : 2 ≤ n) :
    f2_rep j n ≤ f2_rep j (n + 1) := by
  have hp : 2 ≤ (j + 1).toNat := by omega
  obtain ⟨q, hq⟩ : ∃ q, (j + 1).toNat = q + 1 := ⟨(j + 1).toNat - 1, by omega⟩
  have ha := f2_mul_cancel j n (by omega : (0 : Int) < n)
  have hb := f2_mul_cancel j (n + 1) (by omega : (0 : Int) < n + 1)
  have hb' : f2_rep j (n + 1) * (n + 1) =
      n ^ (j + 1).toNat - (-1 : Int) ^ (j + 1).toNat := by
    rw [hb]; ring_nf
  have key := f2_pow_ineq n hn q
  have main : f2_rep j n * (n * (n + 1)) ≤ f2_rep j (n + 1) * (n * (n + 1)) := by
    have l1 : f2_rep j n * (n * (n + 1)) =
        ((n - 1) ^ (j + 1).toNat - (-1 : Int) ^ (j + 1).toNat) * (n + 1) := by
      rw [← ha]; ring
    have l2 : f2_rep j (n + 1) * (n * (n + 1)) =
        (n ^ (j + 1).toNat - (-1 : Int) ^ (j + 1).toNat) * n := by
      rw [← hb']; ring
    rw [l1, l2, hq]
    have e : n ^ (q + 2) = n ^ (q + 1) * n := by ring
    rcases neg_one_pow_eq_or Int (q + 1) with h | h <;> rw [h] <;> nlinarith
  exact le_of_mul_le_mul_right main (by positivity)

/-- A step bound from 2 upward extends to any pair 2 ≤ x ≤ y. -/
theorem mono_from_two (g : Int → Int) (hstep : ∀ x, 2 ≤ x → g x ≤ g (x + 1))
    (x y : Int) (hx : 2 ≤ x) (hxy : x ≤ y) : g x ≤ g y := by
  refine Int.le_induction (P := fun z => g x ≤ g z) (le_refl _) ?_ y hxy
  intro z hz ih
  exact ih.trans (hstep z (hx.trans hz))

/-- f_tor never returns a negative value. -/
theorem f_tor_nonneg (n k : Int) : 0 ≤ f_tor n k := by
  unfold f_tor
  split_ifs with h
  · exact le_refl 0
  · push_neg at h
    obtain ⟨hk, hn, hkn⟩ := h
    refine Finset.prod_nonneg ?_
    intro i hi
    simp only [Finset.mem_range] at hi
    omega

/-- One monotonicity step of f_tor in n, for n ≥ 2 and k ≥ 0. -/
theorem f_tor_mono_succ (n k : Int) (hn : 2 ≤ n) (hk : 0 ≤ k) :
    f_tor n k ≤ f_tor (n + 1) k := by
  by_cases h : n - 2 < k
  · have h0 : f_tor n k = 0 := by
      unfold f_tor; rw [if_pos (Or.inr (Or.inr h))]
    rw [h0]
    exact f_tor_nonneg (n + 1) k
  · have h1 : ¬(k < 0 ∨ n < 2 ∨ n - 2 < k) := by omega
    have h2 : ¬(k < 0 ∨ n + 1 < 2 ∨ n + 1 - 2 < k) := by omega
    unfold f_tor
    rw [if_neg h1, if_neg h2]
    refine Finset.prod_le_prod ?_ ?_
    · intro i hi
      simp only [Finset.mem_range] at hi
      omega
    · intro i hi
      omega

/-- The value branches of f1_no_rep are all non-negative. -/
theorem f1_getD_nonneg (n j : Int) : 0 ≤ (f1_no_rep n j).getD 0 := by
  unfold f1_no_rep
  split_ifs with h1 h2 h3 h4 h5
  · simp
  · simp only [Option.getD_some]
    exact le_max_right _ _
  · have hn : 2 ≤ n := by omega
    simp only [Option.getD_some]
    nlinarith [sq_nonneg (n - 2)]
  · have hn : 3 ≤ n := by omega
    simp only [Option.getD_some]
    refine mul_nonneg (by omega) ?_
    have ht : (0 : Int) ≤ (n - 2) * (n - 3) := mul_nonneg (by omega) (by omega)
    linarith
  · obtain ⟨hj4, hjn⟩ := h5
    simp only [Option.getD_some]
    refine mul_nonneg ?_ (Finset.prod_nonneg ?_)
    · have t1 : (0 : Int) ≤ (j - 2) * (n - 2) := mul_nonneg (by omega) (by omega)
      have t2 : (0 : Int) ≤ (n - 2) * (n - j) := mul_nonneg (by omega) (by omega)
      linarith
    · intro i hi
      simp only [Finset.mem_range] at hi
      omega
  · simp

/-- One monotonicity step of f1_no_rep in n, for n ≥ 2 and j ≥ 1, on the
values (getD 0 reads through the Option; on this domain the function is
total). -/
theorem f1_getD_mono_succ (n j : Int) (hn : 2 ≤ n) (hj : 1 ≤ j) :
    (f1_no_rep n j).getD 0 ≤ (f1_no_rep (n + 1) j).getD 0 := by
  rcases lt_or_le n j with hlt | hle
  · have h0 : f1_no_rep n j = some 0 := by
      unfold f1_no_rep; rw [if_pos hlt]
    rw [h0]
    simpa using f1_getD_nonneg (n + 1) j
  · have hle' : ¬(n < j) := by omega
    have hle'' : ¬(n + 1 < j) := by omega
    rcases (show j = 1 ∨ j = 2 ∨ j = 3 ∨ 4 ≤ j by omega) with h | h | h | h4
    · subst h
      unfold f1_no_rep
      rw [if_neg hle', if_pos rfl, if_neg hle'', if_pos rfl]
      simp only [Option.getD_some]
      exact max_le_max (by omega) (le_refl 0)
    · subst h
      unfold f1_no_rep
      rw [if_neg hle', if_neg (by omega : ¬(2 : Int) = 1), if_pos rfl,
        if_neg hle'', if_neg (by omega : ¬(2 : Int) = 1), if_pos rfl]
      simp only [Option.getD_some]
      nlinarith [hn]
    · subst h
      unfold f1_no_rep
      rw [if_neg hle', if_neg (by omega : ¬(3 : Int) = 1),
        if_neg (by omega : ¬(3 : Int) = 2), if_pos rfl,
        if_neg hle'', if_neg (by omega : ¬(3 : Int) = 1),
        if_neg (by omega : ¬(3 : Int) = 2), if_pos rfl]
      simp only [Option.getD_some]
      nlinarith [hle]
    · unfold f1_no_rep
      rw [if_neg hle', if_neg (by omega : ¬j = 1), if_neg (by omega : ¬j = 2),
        if_neg (by omega : ¬j = 3), if_pos (⟨h4, by omega⟩ : 4 ≤ j ∧ j ≤ n),
        if_neg hle'', if_neg (by omega : ¬j = 1), if_neg (by omega : ¬j = 2),
        if_neg (by omega : ¬j = 3), if_pos (⟨h4, by omega⟩ : 4 ≤ j ∧ j ≤ n + 1)]
      simp only [Option.getD_some]
      refine mul_le_mul ?_ ?_ ?_ ?_
      · nlinarith [hle, h4]
      · refine Finset.prod_le_prod ?_ ?_
        · intro i hi
          simp only [Finset.mem_range] at hi
          omega
        · intro i hi
          omega
      · refine Finset.prod_nonneg ?_
        intro i hi
        simp only [Finset.mem_range] at hi
        omega
      · have t1 : (0 : Int) ≤ (j - 2) * (n + 1 - 2) := mul_nonneg (by omega) (by omega)
        have t2 : (0 : Int) ≤ (n + 1 - 2) * (n + 1 - j) := mul_nonneg (by omega) (by omega)
        linarith

/-- Monotonicity of f1_no_rep values over any pair 2 ≤ x ≤ y, j ≥ 1. -/
theorem f1_getD_mono (j x y : Int) (hj : 1 ≤ j) (hx : 2 ≤ x) (hxy : x ≤ y) :
    (f1_no_rep x j).getD 0 ≤ (f1_no_rep y j).getD 0 :=
  mono_from_two (fun z => (f1_no_rep z j).getD 0)
    (fun z hz => f1_getD_mono_succ z j hz hj) x y hx hxy

/-- C8: F_i2p(n,k) equals F_tor(n,k) squared, for all integers n, k. -/
theorem f_i2p_eq_f_tor_sq (n k : Int) : f_i2p n k = f_tor n k ^ 2 := by
  unfold f_i2p
  ring

/-- C7: the concrete reference values of the spec reproduce exactly:
f_tor(7,3) = 60, f1_no_rep(7,4) = 620, f2_rep(4,7) = 1111. -/
theorem reference_values :
    f_tor 7 3 = 60 ∧ f1_no_rep 7 4 = some 620 ∧ f2_rep 4 7 = 1111 := by
  refine ⟨?_, ?_, ?_⟩ <;> decide

/-- C1 counterexample: at n = 3, j = 10 we have j > n and j lies outside
every handled band (j is not 1, 2 or 3 and the band 4 ≤ j ≤ n is empty
here), yet f1_no_rep returns 0 instead of raising: the guard n < j fires
first in the source. -/
theorem f1_no_rep_raise_counterexample :
    (3 : Int) < 10 ∧ ¬ (4 ≤ (10 : Int) ∧ (10 : Int) ≤ 3) ∧
      (10 : Int) ≠ 1 ∧ (10 : Int) ≠ 2 ∧ (10 : Int) ≠ 3 ∧
      f1_no_rep 3 10 = some 0 := by
  decide

/-- C1 (amended): whenever j > n the no-repeat route count returns 0 and
does not raise; the ValueError branch is unreachable for j > n. -/
theorem f1_no_rep_beyond_n_returns_zero (n j : Int) (h : n < j) :
    f1_no_rep n j = some 0 ∧ f1_no_rep n j ≠ none := by
  unfold f1_no_rep
  rw [if_pos h]
  exact ⟨rfl, by simp⟩

/-- Witness for f1_no_rep_beyond_n_returns_zero at n = 2, j = 7. -/
theorem f1_no_rep_beyond_n_returns_zero_witness :
    (2 : Int) < 7 ∧ (f1_no_rep 2 7 = some 0 ∧ f1_no_rep 2 7 ≠ none) :=
  ⟨by decide, f1_no_rep_beyond_n_returns_zero 2 7 (by decide)⟩

/-- The error branch of f1_no_rep fires exactly when j ≤ 0 and j ≤ n. -/
theorem f1_none_iff (n j : Int) :
    f1_no_rep n j = none ↔ j ≤ 0 ∧ j ≤ n := by
  unfold f1_no_rep
  split_ifs with h1 h2 h3 h4 h5 <;> simp <;> omega

/-- f1_no_rep is total on j ≥ 1. -/
theorem f1_total (n j : Int) (hj : 1 ≤ j) : ∃ v, f1_no_rep n j = some v := by
  cases h : f1_no_rep n j with
  | none =>
      have := (f1_none_iff n j).mp h
      omega
  | some v => exact ⟨v, rfl⟩

/-- C9: f1_no_rep raises (returns none) iff j ≤ 0 and n ≥ j; for every
j ≥ 1 it returns a value, and for every j > n it returns 0. -/
theorem f1_no_rep_error_characterisation (n j : Int) :
    (f1_no_rep n j = none ↔ j ≤ 0 ∧ j ≤ n) ∧
      (1 ≤ j → ∃ v, f1_no_rep n j = some v) ∧
      (n < j → f1_no_rep n j = some 0) := by
  refine ⟨f1_none_iff n j, f1_total n j, fun h => ?_⟩
  unfold f1_no_rep
  rw [if_pos h]

/-- Witness for f1_no_rep_error_characterisation: the error case at
(n,j) = (5,0), totality at (9,4), and the zero case at (2,8). -/
theorem f1_no_rep_error_characterisation_witness :
    f1_no_rep 5 0 = none ∧ (∃ v, f1_no_rep 9 4 = some v) ∧
      f1_no_rep 2 8 = some 0 :=
  ⟨((f1_no_rep_error_characterisation 5 0).1).mpr (by decide),
    (f1_no_rep_error_characterisation 9 4).2.1 (by decide),
    (f1_no_rep_error_characterisation 2 8).2.2 (by decide)⟩

/-- C5: each route-counting function is non-decreasing in n over the
feasible range: for n ≥ 2, k ≥ 0, j ≥ 1, stepping n to n + 1 does not
decrease f_tor, f_i2p, f1_no_rep (whose values exist on this domain) or
f2_rep. -/
theorem route_counts_monotone (n k j : Int) (hn : 2 ≤ n) (hk : 0 ≤ k)
    (hj : 1 ≤ j) :
    f_tor n k ≤ f_tor (n + 1) k ∧ f_i2p n k ≤ f_i2p (n + 1) k ∧
      (∃ v w, f1_no_rep n j = some v ∧ f1_no_rep (n + 1) j = some w ∧ v ≤ w) ∧
      f2_rep j n ≤ f2_rep j (n + 1) := by
  have htor := f_tor_mono_succ n k hn hk
  refine ⟨htor, ?_, ?_, f2_rep_mono_succ j n hj hn⟩
  · unfold f_i2p
    exact mul_le_mul htor htor (f_tor_nonneg n k) (f_tor_nonneg (n + 1) k)
  · obtain ⟨v, hv⟩ := f1_total n j hj
    obtain ⟨w, hw⟩ := f1_total (n + 1) j hj
    refine ⟨v, w, hv, hw, ?_⟩
    have h := f1_getD_mono_succ n j hn hj
    rw [hv, hw] at h
    simpa using h

/-- Witness for route_counts_monotone at n = 7, k = 3, j = 4. -/
theorem route_counts_monotone_witness :
    (2 : Int) ≤ 7 ∧ (0 : Int) ≤ 3 ∧ (1 : Int) ≤ 4 ∧
      (f_tor 7 3 ≤ f_tor (7 + 1) 3 ∧ f_i2p 7 3 ≤ f_i2p (7 + 1) 3 ∧
        (∃ v w, f1_no_rep 7 4 = some v ∧ f1_no_rep (7 + 1) 4 = some w ∧ v ≤ w) ∧
        f2_rep 4 7 ≤ f2_rep 4 (7 + 1)) :=
  ⟨by decide, by decide, by decide,
    route_counts_monotone 7 3 4 (by decide) (by decide) (by decide)⟩

/-- C4: for n ≥ 2, j ≥ 1, 0 ≤ m ≤ n - 2 and either built-in selector,
the safe-route count exists, the total-route count exists, and safe ≤
total. -/
theorem safe_routes_le_total_routes (n j m : Int) (sel : Bool) (hn : 2 ≤ n)
    (hj : 1 ≤ j) (hm0 : 0 ≤ m) (hm : m ≤ n - 2) :
    ∃ s t, _safe_routes n j m sel = some s ∧
      _total_routes n j sel = some t ∧ s ≤ t := by
  by_cases hm' : m = 0
  · have hsafe : _safe_routes n j m sel = _total_routes n j sel := by
      unfold _safe_routes; rw [if_pos hm']
    cases sel with
    | false =>
        obtain ⟨v, hv⟩ := f1_total n j hj
        exact ⟨v, v, by rw [hsafe]; simpa [_total_routes] using hv,
          by simpa [_total_routes] using hv, le_refl v⟩
    | true =>
        exact ⟨f2_rep j n, f2_rep j n, by rw [hsafe]; simp [_total_routes],
          by simp [_total_routes], le_refl _⟩
  · have hsafe : _safe_routes n j m sel = _total_routes (n - m) j sel := by
      unfold _safe_routes; rw [if_neg hm', if_neg (by omega : ¬(n - m < 2))]
    cases sel with
    | false =>
        obtain ⟨s, hs⟩ := f1_total (n - m) j hj
        obtain ⟨t, ht⟩ := f1_total n j hj
        have hmono := f1_getD_mono j (n - m) n hj (by omega) (by omega)
        rw [hs, ht] at hmono
        simp only [Option.getD_some] at hmono
        exact ⟨s, t, by rw [hsafe]; simpa [_total_routes] using hs,
          by simpa [_total_routes] using ht, hmono⟩
    | true =>
        have hmono := mono_from_two (fun x => f2_rep j x)
          (fun x hx => f2_rep_mono_succ j x hj hx) (n - m) n (by omega) (by omega)
        exact ⟨f2_rep j (n - m), f2_rep j n, by rw [hsafe]; simp [_total_routes],
          by simp [_total_routes], hmono⟩

/-- Witness for safe_routes_le_total_routes at n = 7, j = 4, m = 2 with
the no-repeat selector. -/
theorem safe_routes_le_total_routes_witness :
    (2 : Int) ≤ 7 ∧ (1 : Int) ≤ 4 ∧ (0 : Int) ≤ 2 ∧ (2 : Int) ≤ 7 - 2 ∧
      (∃ s t, _safe_routes 7 4 2 false = some s ∧
        _total_routes 7 4 false = some t ∧ s ≤ t) :=
  ⟨by decide, by decide, by decide, by decide,
    safe_routes_le_total_routes 7 4 2 false (by decide) (by decide)
      (by decide) (by decide)⟩

/-- A(j,k,n) is at least 1 for every j ≥ 1 when 1 ≤ k ≤ n - 2 (the
second summand of the general case is a positive binomial times the
previous value). -/
theorem a_pos : ∀ (j k n : Nat), 1 ≤ k → k ≤ n - 2 → 1 ≤ j → 1 ≤ _a j k n
  | 0, _, _, _, _, h => absurd h (by omega)
  | 1, _, _, _, _, _ => le_refl 1
  | 2, k, n, _, hkn, _ => by
      have h := Nat.choose_pos hkn
      simp only [_a]
      omega
  | (j + 3), k, n, hk, hkn, _ => by
      have h1 := Nat.choose_pos hkn
      have h2 := a_pos (j + 2) k n hk hkn (by omega)
      have h3 : 0 < Nat.choose (n - 2) k * _a (j + 2) k n :=
        Nat.mul_pos h1 h2
      simp only [_a]
      omega

/-- C10: for n ≥ 3, 1 ≤ k ≤ n - 2, j ≥ 1, the helper _a returns a value
at least 1, so the divisor _a (j-1) appearing in n_mss is never zero.
Termination of both recursions on this domain is embodied by the fact
that _a and n_mss are total structurally-recursive Nat functions whose
j = 0 fallback is unreachable from j ≥ 1. -/
theorem a_positive (j k n : Nat) (hn : 3 ≤ n) (hk : 1 ≤ k)
    (hkn : k ≤ n - 2) (hj : 1 ≤ j) :
    1 ≤ _a j k n ∧ _a j k n ≠ 0 := by
  have h := a_pos j k n hk hkn hj
  exact ⟨h, by omega⟩

/-- Witness for a_positive at j = 4, k = 2, n = 5. -/
theorem a_positive_witness :
    3 ≤ 5 ∧ 1 ≤ 2 ∧ 2 ≤ 5 - 2 ∧ 1 ≤ 4 ∧ (1 ≤ _a 4 2 5 ∧ _a 4 2 5 ≠ 0) :=
  ⟨by decide, by decide, by decide, by decide,
    a_positive 4 2 5 (by decide) (by decide) (by decide) (by decide)⟩

/-- C2: for n ≥ 3, 1 ≤ k ≤ n - 2, j ≥ 2, the integer division in the
MSS recursion is exact: A(j-1,k,n) divides N(j-1,k,n)^k, the floor
division leaves no remainder, and n_mss j follows the recursion
N(j-1)^k // A(j-1) * A(j).  (N(j-1) is itself a multiple of A(j-1) by
the shape of the recursion, and k ≥ 1 lifts that to the k-th power.) -/
theorem n_mss_division_exact (j k n : Nat) (hn : 3 ≤ n) (hk : 1 ≤ k)
    (hkn : k ≤ n - 2) (hj : 2 ≤ j) :
    _a (j - 1) k n ∣ n_mss (j - 1) k n ^ k ∧
      n_mss (j - 1) k n ^ k / _a (j - 1) k n * _a (j - 1) k n
        = n_mss (j - 1) k n ^ k ∧
      n_mss j k n = n_mss (j - 1) k n ^ k / _a (j - 1) k n * _a j k n := by
  obtain ⟨j', rfl⟩ : ∃ j', j = j' + 2 := ⟨j - 2, by omega⟩
  have hsub : j' + 2 - 1 = j' + 1 := by omega
  have hdvd : _a (j' + 1) k n ∣ n_mss (j' + 1) k n ^ k := by
    cases j' with
    | zero => simp [_a]
    | succ i =>
        have he : n_mss (i + 2) k n
            = n_mss (i + 1) k n ^ k / _a (i + 1) k n * _a (i + 2) k n := by
          simp [n_mss]
        have hd : _a (i + 2) k n ∣ n_mss (i + 2) k n := by
          rw [he]; exact dvd_mul_left _ _
        exact dvd_pow hd (by omega)
  rw [hsub]
  exact ⟨hdvd, Nat.div_mul_cancel hdvd, by simp [n_mss]⟩

/-- Witness for n_mss_division_exact at j = 3, k = 1, n = 4. -/
theorem n_mss_division_exact_witness :
    3 ≤ 4 ∧ 1 ≤ 1 ∧ 1 ≤ 4 - 2 ∧ 2 ≤ 3 ∧
      (_a (3 - 1) 1 4 ∣ n_mss (3 - 1) 1 4 ^ 1 ∧
        n_mss (3 - 1) 1 4 ^ 1 / _a (3 - 1) 1 4 * _a (3 - 1) 1 4
          = n_mss (3 - 1) 1 4 ^ 1 ∧
        n_mss 3 1 4 = n_mss (3 - 1) 1 4 ^ 1 / _a (3 - 1) 1 4 * _a 3 1 4) :=
  ⟨by decide, by decide, by decide, by decide,
    n_mss_division_exact 3 1 4 (by decide) (by decide) (by decide) (by decide)⟩
